import Mathlib

/-
Shallow embedding of the concurrent hash-set library (Sequential,
Coarse-Grained, Striped, Refinable variants) for single-threaded /
externally-serialized executions, which is the setting of the claims
under verification.

Modelling conventions:
  - std::vector<std::vector<T>> buckets_  ↦  List (List α)
  - std::vector<std::mutex> locks_        ↦  its length (a Nat); mutexes
    carry no data, so in a sequential execution only the count is
    observable.
  - size_t                                ↦  Nat.  The only places where
    size_t wrap-around could differ from Nat arithmetic are --size_ at
    size_ = 0 (requires an element to be present while the counter is 0,
    impossible in any state reachable from a constructor) and capacity
    doublings near 2^64 (never reached); neither matters for the claims.
  - double load-factor comparisons: LoadFactor() < 1.0 is size < B and
    LoadFactor() > 4.0 is size > 4*B.  The C++ computes
    double(size)/double(B); for size, B < 2^53 the conversion is exact
    and the double comparison agrees exactly with these Nat comparisons.
  - hash(v) % buckets_.size() with buckets_.size() = 0 is undefined
    behavior in C++; operations of the coarse-grained variant (the one
    variant whose bucket count can reach 0) therefore return Option,
    with none on that branch.
  - In a single-threaded execution the retry loops of the Striped and
    Refinable operations run their body exactly once (no concurrent
    resize can change the capacity or the version stamp between the
    observation and the locked re-check), and resizing_ is false
    whenever a public operation starts; the embeddings below are those
    single-iteration bodies.
-/

namespace HashSet

variable {α : Type}

/-- Shared constant kMinBuckets = 4. -/
def kMinBuckets : Nat := 4

/-- NormalizeCapacity(cap): `return cap == 0 ? kMinBuckets : cap;`
(identical in every variant). -/
def NormalizeCapacity (cap : Nat) : Nat :=
  if cap = 0 then kMinBuckets else cap

/-- new_buckets[i].push_back(v): append v to bucket i.  (List.set is the
identity when i is out of range; every in-source use has i < length.) -/
def bucketPush (bs : List (List α)) (i : Nat) (v : α) : List (List α) :=
  bs.set i (bs.getD i [] ++ [v])

/-- The rehash loop shared by every Resize:
for each old bucket, for each element v, push v into
new_buckets[hash(v) % new_cap], starting from new_cap empty buckets. -/
def rehashInto (hash : α → Nat) (new_cap : Nat) (bs : List (List α)) :
    List (List α) :=
  bs.foldl
    (fun acc bucket =>
      bucket.foldl (fun acc2 v => bucketPush acc2 (hash v % new_cap) v) acc)
    (List.replicate new_cap [])

/-- One-list form of the rehash loop, folding over a flat element list. -/
def rehashSeq (hash : α → Nat) (new_cap : Nat) (vs : List α)
    (acc : List (List α)) : List (List α) :=
  vs.foldl (fun a v => bucketPush a (hash v % new_cap) v) acc

end HashSet

namespace HashSetSequential

/-- State of HashSetSequential: the bucket array and the size counter. -/
structure State (α : Type) where
  buckets : List (List α)
  size : Nat
deriving Repr, DecidableEq

/-- Constructor: buckets_(std::max(NormalizeCapacity(initial_capacity),
kMinBuckets)), size_(0). -/
def init (α : Type) (initial_capacity : Nat) : State α :=
  { buckets :=
      List.replicate
        (max (HashSet.NormalizeCapacity initial_capacity) HashSet.kMinBuckets)
        []
    size := 0 }

/-- Resize(new_cap): rehash all elements into a table with new_cap
buckets; size_ is untouched. -/
def Resize (hash : α → Nat) (s : State α) (new_cap : Nat) : State α :=
  { s with buckets := HashSet.rehashInto hash new_cap s.buckets }

/-- Add(elem): duplicate scan in bucket Index(elem); on insert, increment
size and grow to 2B when LoadFactor() > kMaxLoadFactor. -/
def Add [DecidableEq α] (hash : α → Nat) (s : State α) (elem : α) :
    Bool × State α :=
  let i := hash elem % s.buckets.length
  let b := s.buckets.getD i []
  if elem ∈ b then (false, s)
  else
    let s1 : State α := { buckets := HashSet.bucketPush s.buckets i elem
                          size := s.size + 1 }
    if 4 * s1.buckets.length < s1.size then
      (true, Resize hash s1 (s1.buckets.length * 2))
    else (true, s1)

/-- Remove(elem): erase on match, decrement size; this variant never
shrinks. -/
def Remove [DecidableEq α] (hash : α → Nat) (s : State α) (elem : α) :
    Bool × State α :=
  let i := hash elem % s.buckets.length
  let b := s.buckets.getD i []
  if elem ∈ b then
    (true, { buckets := s.buckets.set i (b.erase elem), size := s.size - 1 })
  else (false, s)

/-- Contains(elem): linear scan of bucket Index(elem); returns the answer
together with the state the call leaves behind. -/
def Contains [DecidableEq α] (hash : α → Nat) (s : State α) (elem : α) :
    Bool × State α :=
  let i := hash elem % s.buckets.length
  let b := s.buckets.getD i []
  (decide (elem ∈ b), s)

/-- Size(): returns size_ together with the state the call leaves
behind. -/
def Size (s : State α) : Nat × State α :=
  (s.size, s)

end HashSetSequential

namespace HashSet

/-- A public mutating operation of the uniform contract (Contains is
included because it is called in operation sequences; Size is stateless
in every variant). -/
inductive Op (α : Type) where
  | add (v : α)
  | remove (v : α)
  | contains (v : α)
deriving Repr, DecidableEq

end HashSet

namespace HashSetSequential

/-- Effect of one operation on a sequential state. -/
def step [DecidableEq α] (hash : α → Nat) (s : State α) :
    HashSet.Op α → State α
  | .add v => (Add hash s v).2
  | .remove v => (Remove hash s v).2
  | .contains v => (Contains hash s v).2

/-- Run a sequence of operations from a given state. -/
def runFrom [DecidableEq α] (hash : α → Nat) (s : State α) :
    List (HashSet.Op α) → State α
  | [] => s
  | op :: ops => runFrom hash (step hash s op) ops

/-- Run a sequence of operations from a freshly constructed set. -/
def run [DecidableEq α] (hash : α → Nat) (initial_capacity : Nat)
    (ops : List (HashSet.Op α)) : State α :=
  runFrom hash (init α initial_capacity) ops

end HashSetSequential

namespace HashSetCoarseGrained

/-- State of HashSetCoarseGrained: the bucket array and the size counter
(the single global mutex carries no data). -/
structure State (α : Type) where
  buckets : List (List α)
  size : Nat
deriving Repr, DecidableEq

/-- Constructor: buckets_(std::max(NormalizeCapacity(initial_capacity),
kMinBuckets)), size_(0). -/
def init (α : Type) (initial_capacity : Nat) : State α :=
  { buckets :=
      List.replicate
        (max (HashSet.NormalizeCapacity initial_capacity) HashSet.kMinBuckets)
        []
    size := 0 }

/-- Resize(new_capacity): rehash everything into new_capacity buckets.
Note: unlike the Striped and Refinable variants, this Resize applies no
max(kMinBuckets, ...) clamp to new_capacity. -/
def Resize (hash : α → Nat) (s : State α) (new_capacity : Nat) : State α :=
  { s with buckets := HashSet.rehashInto hash new_capacity s.buckets }

/-- Add(elem) under the global lock.  Index(elem) = hash % buckets_.size()
is undefined behavior when the bucket count is 0, hence the Option. -/
def Add [DecidableEq α] (hash : α → Nat) (s : State α) (elem : α) :
    Option (Bool × State α) :=
  if s.buckets.length = 0 then none
  else
    let i := hash elem % s.buckets.length
    let b := s.buckets.getD i []
    if elem ∈ b then some (false, s)
    else
      let s1 : State α := { buckets := HashSet.bucketPush s.buckets i elem
                            size := s.size + 1 }
      if 4 * s1.buckets.length < s1.size then
        some (true, Resize hash s1 (s1.buckets.length * 2))
      else some (true, s1)

/-- Remove(elem) under the global lock: erase on match, decrement size,
and when LoadFactor() < 1.0 call Resize(buckets_.size() / 2) — with no
clamp at kMinBuckets. -/
def Remove [DecidableEq α] (hash : α → Nat) (s : State α) (elem : α) :
    Option (Bool × State α) :=
  if s.buckets.length = 0 then none
  else
    let i := hash elem % s.buckets.length
    let b := s.buckets.getD i []
    if elem ∈ b then
      let s1 : State α := { buckets := s.buckets.set i (b.erase elem)
                            size := s.size - 1 }
      if s1.size < s1.buckets.length then
        some (true, Resize hash s1 (s1.buckets.length / 2))
      else some (true, s1)
    else some (false, s)

/-- Contains(elem) under the global lock. -/
def Contains [DecidableEq α] (hash : α → Nat) (s : State α) (elem : α) :
    Option (Bool × State α) :=
  if s.buckets.length = 0 then none
  else
    let i := hash elem % s.buckets.length
    let b := s.buckets.getD i []
    some (decide (elem ∈ b), s)

/-- Size() under the global lock. -/
def Size (s : State α) : Nat × State α :=
  (s.size, s)

/-- Effect of one operation; none when the operation hits the undefined
modulo-by-zero. -/
def step [DecidableEq α] (hash : α → Nat) (s : State α) :
    HashSet.Op α → Option (State α)
  | .add v => (Add hash s v).map (·.2)
  | .remove v => (Remove hash s v).map (·.2)
  | .contains v => (Contains hash s v).map (·.2)

/-- Run a sequence of operations from a given state. -/
def runFrom [DecidableEq α] (hash : α → Nat) (s : State α) :
    List (HashSet.Op α) → Option (State α)
  | [] => some s
  | op :: ops =>
    match step hash s op with
    | none => none
    | some s1 => runFrom hash s1 ops

/-- Run a sequence of operations from a freshly constructed set. -/
def run [DecidableEq α] (hash : α → Nat) (initial_capacity : Nat)
    (ops : List (HashSet.Op α)) : Option (State α) :=
  runFrom hash (init α initial_capacity) ops

end HashSetCoarseGrained

namespace HashSetStriped

/-- State of HashSetStriped: buckets, size and the number of stripe
mutexes in locks_. -/
structure State (α : Type) where
  buckets : List (List α)
  size : Nat
  locksLen : Nat
deriving Repr, DecidableEq

/-- Constructor: buckets_(std::max(NormalizeCapacity(initial_capacity),
kMinBuckets)), size_(0), locks_(stripes ? stripes : 64). -/
def init (α : Type) (initial_capacity : Nat) (stripes : Nat) : State α :=
  { buckets :=
      List.replicate
        (max (HashSet.NormalizeCapacity initial_capacity) HashSet.kMinBuckets)
        []
    size := 0
    locksLen := if stripes = 0 then 64 else stripes }

/-- Resize(new_capacity): clamp to max(kMinBuckets,
NormalizeCapacity(new_capacity)); return if that equals the current
capacity; otherwise rehash into the new bucket array.  The stripe lock
array is not touched. -/
def Resize (hash : α → Nat) (s : State α) (new_capacity : Nat) : State α :=
  let nc := max HashSet.kMinBuckets (HashSet.NormalizeCapacity new_capacity)
  if nc = s.buckets.length then s
  else { s with buckets := HashSet.rehashInto hash nc s.buckets }

/-- Add(elem): single-threaded body of the retry loop, then the growth
check LoadFactor() > kMaxLoadFactor → Resize(buckets_.size() * 2). -/
def Add [DecidableEq α] (hash : α → Nat) (s : State α) (elem : α) :
    Bool × State α :=
  let i := hash elem % s.buckets.length
  let b := s.buckets.getD i []
  if elem ∈ b then (false, s)
  else
    let s1 : State α := { s with buckets := HashSet.bucketPush s.buckets i elem
                                 size := s.size + 1 }
    if 4 * s1.buckets.length < s1.size then
      (true, Resize hash s1 (s1.buckets.length * 2))
    else (true, s1)

/-- Remove(elem): single-threaded body of the retry loop, then the shrink
check LoadFactor() < 1.0 and buckets_.size() > kMinBuckets →
Resize(buckets_.size() / 2). -/
def Remove [DecidableEq α] (hash : α → Nat) (s : State α) (elem : α) :
    Bool × State α :=
  let i := hash elem % s.buckets.length
  let b := s.buckets.getD i []
  if elem ∈ b then
    let s1 : State α := { s with buckets := s.buckets.set i (b.erase elem)
                                 size := s.size - 1 }
    if s1.size < s1.buckets.length ∧ HashSet.kMinBuckets < s1.buckets.length
    then (true, Resize hash s1 (s1.buckets.length / 2))
    else (true, s1)
  else (false, s)

/-- Contains(elem): single-threaded body of the retry loop. -/
def Contains [DecidableEq α] (hash : α → Nat) (s : State α) (elem : α) :
    Bool × State α :=
  let i := hash elem % s.buckets.length
  let b := s.buckets.getD i []
  (decide (elem ∈ b), s)

/-- Size(): relaxed read of size_. -/
def Size (s : State α) : Nat × State α :=
  (s.size, s)

/-- Effect of one operation on a striped state. -/
def step [DecidableEq α] (hash : α → Nat) (s : State α) :
    HashSet.Op α → State α
  | .add v => (Add hash s v).2
  | .remove v => (Remove hash s v).2
  | .contains v => (Contains hash s v).2

/-- Run a sequence of operations from a given state. -/
def runFrom [DecidableEq α] (hash : α → Nat) (s : State α) :
    List (HashSet.Op α) → State α
  | [] => s
  | op :: ops => runFrom hash (step hash s op) ops

/-- Run a sequence of operations from a freshly constructed set. -/
def run [DecidableEq α] (hash : α → Nat) (initial_capacity : Nat)
    (stripes : Nat) (ops : List (HashSet.Op α)) : State α :=
  runFrom hash (init α initial_capacity stripes) ops

end HashSetStriped

namespace HashSetRefinable

/-- State of HashSetRefinable: buckets, size, the number of bucket
mutexes in locks_, and the resize version stamp.  resizing_ and
owner_tid_hash_ are false / 0 whenever no resize is mid-flight, hence
carry no information at the observation points of the claims. -/
structure State (α : Type) where
  buckets : List (List α)
  size : Nat
  locksLen : Nat
  version : Nat
deriving Repr, DecidableEq

/-- Constructor: buckets_(std::max(NormalizeCapacity(initial_capacity),
kMinBuckets)), size_(0), locks_(buckets_.size()), version_(0). -/
def init (α : Type) (initial_capacity : Nat) : State α :=
  let cap :=
    max (HashSet.NormalizeCapacity initial_capacity) HashSet.kMinBuckets
  { buckets := List.replicate cap []
    size := 0
    locksLen := cap
    version := 0 }

/-- Resize(new_capacity) (draft of src/unnamed/part_000; the skeleton
draft publishes the same state): clamp the request to max(kMinBuckets,
NormalizeCapacity(new_capacity)); return if equal to the current
capacity; otherwise rehash into new_buckets of size new_capacity, swap
in new_locks of size new_capacity and bump version_. -/
def Resize (hash : α → Nat) (s : State α) (new_capacity : Nat) : State α :=
  let nc := max HashSet.kMinBuckets (HashSet.NormalizeCapacity new_capacity)
  if nc = s.buckets.length then s
  else { buckets := HashSet.rehashInto hash nc s.buckets
         size := s.size
         locksLen := nc
         version := s.version + 1 }

/-- Add(elem) of src/unnamed/part_000, single-threaded body of the retry
loop, then the growth check (lf computed against used_cap):
lf > kMaxLoadFactor and not resizing → Resize(used_cap * 2). -/
def Add [DecidableEq α] (hash : α → Nat) (s : State α) (elem : α) :
    Bool × State α :=
  let used_cap := s.buckets.length
  let i := hash elem % used_cap
  let b := s.buckets.getD i []
  if elem ∈ b then (false, s)
  else
    let s1 : State α := { s with buckets := HashSet.bucketPush s.buckets i elem
                                 size := s.size + 1 }
    if 4 * used_cap < s1.size then (true, Resize hash s1 (used_cap * 2))
    else (true, s1)

/-- Remove(elem) of src/unnamed/part_000, single-threaded body of the
retry loop, then the shrink check (lf computed against used_cap):
lf < kMinLoadFactor and not resizing →
Resize(std::max(kMinBuckets, used_cap / 2)). -/
def Remove [DecidableEq α] (hash : α → Nat) (s : State α) (elem : α) :
    Bool × State α :=
  let used_cap := s.buckets.length
  let i := hash elem % used_cap
  let b := s.buckets.getD i []
  if elem ∈ b then
    let s1 : State α := { s with buckets := s.buckets.set i (b.erase elem)
                                 size := s.size - 1 }
    if s1.size < used_cap then
      (true, Resize hash s1 (max HashSet.kMinBuckets (used_cap / 2)))
    else (true, s1)
  else (false, s)

/-- Contains(elem): single-threaded body of the retry loop. -/
def Contains [DecidableEq α] (hash : α → Nat) (s : State α) (elem : α) :
    Bool × State α :=
  let i := hash elem % s.buckets.length
  let b := s.buckets.getD i []
  (decide (elem ∈ b), s)

/-- Size(): relaxed read of size_. -/
def Size (s : State α) : Nat × State α :=
  (s.size, s)

/-- Effect of one operation on a refinable state (part_000 draft). -/
def step [DecidableEq α] (hash : α → Nat) (s : State α) :
    HashSet.Op α → State α
  | .add v => (Add hash s v).2
  | .remove v => (Remove hash s v).2
  | .contains v => (Contains hash s v).2

/-- Run a sequence of operations from a given state. -/
def runFrom [DecidableEq α] (hash : α → Nat) (s : State α) :
    List (HashSet.Op α) → State α
  | [] => s
  | op :: ops => runFrom hash (step hash s op) ops

/-- Run a sequence of operations from a freshly constructed set. -/
def run [DecidableEq α] (hash : α → Nat) (initial_capacity : Nat)
    (ops : List (HashSet.Op α)) : State α :=
  runFrom hash (init α initial_capacity) ops

end HashSetRefinable

namespace HashSetRefinableSkeleton

/-- Remove(elem) of the skeleton draft
(src/skeleton/src/hash_set_refinable.h lines 69-94), single-threaded
body of the retry loop: erase on match and decrement size, then return;
this draft performs no load-factor check and no Resize on Remove. -/
def Remove [DecidableEq α] (hash : α → Nat)
    (s : HashSetRefinable.State α) (elem : α) :
    Bool × HashSetRefinable.State α :=
  let i := hash elem % s.buckets.length
  let b := s.buckets.getD i []
  if elem ∈ b then
    (true, { s with buckets := s.buckets.set i (b.erase elem)
                    size := s.size - 1 })
  else (false, s)

end HashSetRefinableSkeleton

/-- Concrete sequential state used to instantiate the Resize theorem:
four buckets holding 0 and 1 (a state the constructor plus two Adds
produces). -/
def seqStateW : HashSetSequential.State Nat :=
  { buckets := [[0], [1], [], []], size := 2 }

/-- Concrete refinable state with 8 buckets holding only the value 1
(in bucket 1 = 1 mod 8), 8 bucket locks and version 0. -/
def refStateW : HashSetRefinable.State Nat :=
  { buckets := [[], [1], [], [], [], [], [], []]
    size := 1
    locksLen := 8
    version := 0 }

/-- Concrete coarse-grained state with one bucket holding the value 0. -/
def coarseStateW : HashSetCoarseGrained.State Nat :=
  { buckets := [[0], [], [], []], size := 1 }

namespace HashSet

variable {α : Type}

theorem length_bucketPush (bs : List (List α)) (i : Nat) (v : α) :
    (bucketPush bs i v).length = bs.length := by
  simp [bucketPush]

theorem set_oob {β : Type} (bs : List β) (i : Nat) (x : β)
    (h : bs.length ≤ i) : bs.set i x = bs := by
  induction bs generalizing i with
  | nil => rfl
  | cons b t ih =>
    cases i with
    | zero => simp at h
    | succ j =>
      simp only [List.set]
      rw [ih]
      exact Nat.le_of_succ_le_succ h

theorem getD_set_self {β : Type} (bs : List β) (i : Nat) (x d : β)
    (h : i < bs.length) : (bs.set i x).getD i d = x := by
  induction bs generalizing i with
  | nil => simp at h
  | cons b t ih =>
    cases i with
    | zero => rfl
    | succ j =>
      simp only [List.set, List.getD_cons_succ]
      exact ih j (Nat.lt_of_succ_lt_succ h)

theorem getD_set_ne {β : Type} (bs : List β) (i j : Nat) (x d : β)
    (h : i ≠ j) : (bs.set i x).getD j d = bs.getD j d := by
  induction bs generalizing i j with
  | nil => rfl
  | cons b t ih =>
    cases i with
    | zero =>
      cases j with
      | zero => exact absurd rfl h
      | succ k => rfl
    | succ i0 =>
      cases j with
      | zero => rfl
      | succ k =>
        simp only [List.set, List.getD_cons_succ]
        exact ih i0 k (fun hik => h (congrArg Nat.succ hik))

theorem getD_replicate {β : Type} (n j : Nat) (d : β) :
    (List.replicate n d).getD j d = d := by
  induction n generalizing j with
  | zero => rfl
  | succ m ih =>
    cases j with
    | zero => rfl
    | succ k => exact ih k

theorem flatten_replicate_nil (n : Nat) :
    (List.replicate n ([] : List α)).flatten = [] := by
  induction n with
  | zero => rfl
  | succ m ih => simp

theorem getD_bucketPush_self (bs : List (List α)) (i : Nat) (v : α)
    (h : i < bs.length) :
    (bucketPush bs i v).getD i [] = bs.getD i [] ++ [v] := by
  simp only [bucketPush]
  exact getD_set_self bs i _ [] h

theorem getD_bucketPush_ne (bs : List (List α)) (i j : Nat) (v : α)
    (h : i ≠ j) : (bucketPush bs i v).getD j [] = bs.getD j [] := by
  simp only [bucketPush]
  exact getD_set_ne bs i j _ [] h

theorem count_flatten_bucketPush [DecidableEq α] (bs : List (List α))
    (i : Nat) (v w : α) (h : i < bs.length) :
    ((bucketPush bs i v).flatten).count w
      = (bs.flatten).count w + (if v = w then 1 else 0) := by
  induction bs generalizing i with
  | nil => simp at h
  | cons b t ih =>
    cases i with
    | zero =>
      simp only [bucketPush, List.set, List.getD_cons_zero, List.flatten_cons,
        List.count_append]
      have hv : List.count w [v] = if v = w then 1 else 0 := by
        simp [List.count_cons]
      omega
    | succ j =>
      have hj : j < t.length := Nat.lt_of_succ_lt_succ h
      simp only [bucketPush, List.set, List.getD_cons_succ, List.flatten_cons,
        List.count_append]
      have hrec := ih j hj
      simp only [bucketPush] at hrec
      omega

/-- Invariant I2 relative to a modulus nc: every element of bucket j
hashes to j mod nc. -/
def placedOK (hash : α → Nat) (nc : Nat) (bs : List (List α)) : Prop :=
  ∀ j, ∀ v ∈ bs.getD j [], hash v % nc = j

theorem placedOK_bucketPush (hash : α → Nat) (nc : Nat)
    (bs : List (List α)) (v : α) (hlen : bs.length = nc) (hnc : 0 < nc)
    (h : placedOK hash nc bs) :
    placedOK hash nc (bucketPush bs (hash v % nc) v) := by
  intro j w hw
  by_cases hji : j = hash v % nc
  · subst hji
    rw [getD_bucketPush_self bs _ v (by rw [hlen]; exact Nat.mod_lt _ hnc)]
      at hw
    rcases List.mem_append.mp hw with hl | hr
    · exact h _ _ hl
    · have : w = v := by simpa using hr
      subst this; rfl
  · rw [getD_bucketPush_ne bs _ j v (fun he => hji he.symm)] at hw
    exact h _ _ hw

theorem placedOK_set_subset (hash : α → Nat) (nc : Nat)
    (bs : List (List α)) (i : Nat) (x : List α)
    (hsub : ∀ w ∈ x, w ∈ bs.getD i []) (h : placedOK hash nc bs) :
    placedOK hash nc (bs.set i x) := by
  intro j w hw
  by_cases hlt : i < bs.length
  · by_cases hji : j = i
    · subst hji
      rw [getD_set_self bs j x [] hlt] at hw
      exact h _ _ (hsub _ hw)
    · rw [getD_set_ne bs i j x [] (fun he => hji he.symm)] at hw
      exact h _ _ hw
  · rw [set_oob bs i x (Nat.le_of_not_lt hlt)] at hw
    exact h _ _ hw

theorem rehashSeq_spec [DecidableEq α] (hash : α → Nat) (nc : Nat)
    (hnc : 0 < nc) :
    ∀ (vs : List α) (acc : List (List α)), acc.length = nc →
      placedOK hash nc acc →
      (rehashSeq hash nc vs acc).length = nc ∧
      placedOK hash nc (rehashSeq hash nc vs acc) ∧
      ∀ w, ((rehashSeq hash nc vs acc).flatten).count w
        = (acc.flatten).count w + vs.count w := by
  intro vs
  induction vs with
  | nil =>
    intro acc hlen hpl
    refine ⟨hlen, hpl, fun w => ?_⟩
    simp [rehashSeq]
  | cons v vs ih =>
    intro acc hlen hpl
    have hstep : rehashSeq hash nc (v :: vs) acc
        = rehashSeq hash nc vs (bucketPush acc (hash v % nc) v) := rfl
    have hlen1 : (bucketPush acc (hash v % nc) v).length = nc := by
      rw [length_bucketPush]; exact hlen
    have hpl1 : placedOK hash nc (bucketPush acc (hash v % nc) v) :=
      placedOK_bucketPush hash nc acc v hlen hnc hpl
    obtain ⟨h1, h2, h3⟩ := ih (bucketPush acc (hash v % nc) v) hlen1 hpl1
    rw [hstep]
    refine ⟨h1, h2, fun w => ?_⟩
    rw [h3 w,
      count_flatten_bucketPush acc (hash v % nc) v w
        (by rw [hlen]; exact Nat.mod_lt _ hnc)]
    have hcons : (v :: vs).count w = vs.count w + if v = w then 1 else 0 := by
      simp [List.count_cons]
    omega

theorem foldl_foldl_flatten {β γ : Type} (f : γ → β → γ) :
    ∀ (bs : List (List β)) (acc : γ),
      bs.foldl (fun a bucket => bucket.foldl f a) acc
        = (bs.flatten).foldl f acc := by
  intro bs
  induction bs with
  | nil => intro acc; rfl
  | cons b t ih =>
    intro acc
    simp only [List.foldl_cons, List.flatten_cons, List.foldl_append]
    exact ih (b.foldl f acc)

theorem rehashInto_eq_rehashSeq (hash : α → Nat) (nc : Nat)
    (bs : List (List α)) :
    rehashInto hash nc bs
      = rehashSeq hash nc bs.flatten (List.replicate nc []) :=
  foldl_foldl_flatten _ bs _

/-- Full correctness of the shared rehash loop for a positive target
capacity: the new table has exactly nc buckets, every element sits in
bucket hash(v) mod nc, and the multiset of stored elements is
preserved. -/
theorem rehashInto_spec [DecidableEq α] (hash : α → Nat) (nc : Nat)
    (hnc : 0 < nc) (bs : List (List α)) :
    (rehashInto hash nc bs).length = nc ∧
    placedOK hash nc (rehashInto hash nc bs) ∧
    ∀ w, ((rehashInto hash nc bs).flatten).count w
      = (bs.flatten).count w := by
  rw [rehashInto_eq_rehashSeq]
  have hrep : (List.replicate nc ([] : List α)).length = nc :=
    List.length_replicate nc []
  have hpl : placedOK hash nc (List.replicate nc ([] : List α)) := by
    intro j w hw
    rw [getD_replicate] at hw
    simp at hw
  obtain ⟨h1, h2, h3⟩ := rehashSeq_spec hash nc hnc bs.flatten _ hrep hpl
  refine ⟨h1, h2, fun w => ?_⟩
  rw [h3 w, flatten_replicate_nil]
  simp

theorem rehashSeq_nil_acc (hash : α → Nat) (nc : Nat) :
    ∀ vs : List α, rehashSeq hash nc vs [] = [] := by
  intro vs
  induction vs with
  | nil => rfl
  | cons v t ih =>
    have : rehashSeq hash nc (v :: t) ([] : List (List α))
        = rehashSeq hash nc t (bucketPush [] (hash v % nc) v) := rfl
    rw [this]
    have hb : bucketPush ([] : List (List α)) (hash v % nc) v = [] := rfl
    rw [hb, ih]

/-- Rehashing into a zero-bucket table yields the empty bucket list (the
case the coarse-grained shrink bug can reach, with no elements left). -/
theorem rehashInto_zero (hash : α → Nat) (bs : List (List α)) :
    rehashInto hash 0 bs = [] := by
  rw [rehashInto_eq_rehashSeq]
  exact rehashSeq_nil_acc hash 0 bs.flatten

theorem mem_flatten_index (bs : List (List α)) (v : α)
    (h : v ∈ bs.flatten) : ∃ j, j < bs.length ∧ v ∈ bs.getD j [] := by
  induction bs with
  | nil => simp at h
  | cons b t ih =>
    rw [List.flatten_cons, List.mem_append] at h
    rcases h with hl | hr
    · exact ⟨0, Nat.succ_pos _, hl⟩
    · obtain ⟨j, hj, hmem⟩ := ih hr
      exact ⟨j + 1, Nat.succ_lt_succ hj, hmem⟩

end HashSet

namespace HashSet

/-- The composition the constructors use: max(NormalizeCapacity(c),
kMinBuckets) equals max(c, kMinBuckets). -/
theorem max_normalize (c : Nat) :
    max (NormalizeCapacity c) kMinBuckets = max c kMinBuckets := by
  unfold NormalizeCapacity kMinBuckets
  split
  · rename_i h
    subst h
    decide
  · rfl

end HashSet

namespace HashSetStriped

variable {α : Type}

theorem Resize_locksLen (hash : α → Nat) (s : State α) (nc : Nat) :
    (Resize hash s nc).locksLen = s.locksLen := by
  unfold Resize
  dsimp only
  split <;> rfl

theorem step_locksLen [DecidableEq α] (hash : α → Nat) (s : State α)
    (op : HashSet.Op α) : (step hash s op).locksLen = s.locksLen := by
  cases op <;>
    simp only [step, Add, Remove, Contains] <;>
    split <;>
    first
      | rfl
      | (split <;> simp [Resize_locksLen])

theorem runFrom_locksLen [DecidableEq α] (hash : α → Nat) :
    ∀ (ops : List (HashSet.Op α)) (s : State α),
      (runFrom hash s ops).locksLen = s.locksLen := by
  intro ops
  induction ops with
  | nil => intro s; rfl
  | cons op t ih =>
    intro s
    show (runFrom hash (step hash s op) t).locksLen = s.locksLen
    rw [ih (step hash s op), step_locksLen]

end HashSetStriped

/-- C5: the Striped set constructed with stripe count S (S = 0 coerced
to 64) has a lock array of exactly that many mutexes after
construction, after every sequence of Add/Remove/Contains operations,
and Resize never changes it. -/
theorem claim_c5_striped_stripe_count_invariant (α : Type) [DecidableEq α]
    (hash : α → Nat) (c stripes : Nat) (ops : List (HashSet.Op α)) :
    (HashSetStriped.init α c stripes).locksLen
        = (if stripes = 0 then 64 else stripes) ∧
    (HashSetStriped.run hash c stripes ops).locksLen
        = (if stripes = 0 then 64 else stripes) ∧
    ∀ (s : HashSetStriped.State α) (nc : Nat),
      (HashSetStriped.Resize hash s nc).locksLen = s.locksLen := by
  refine ⟨rfl, ?_, fun s nc => HashSetStriped.Resize_locksLen hash s nc⟩
  rw [HashSetStriped.run, HashSetStriped.runFrom_locksLen]
  rfl

namespace HashSetRefinable

variable {α : Type}

/-- One lock per bucket (invariant I5), as a predicate on states. -/
def LocksMatch (s : State α) : Prop :=
  s.locksLen = s.buckets.length

theorem Resize_locksMatch [DecidableEq α] (hash : α → Nat) (s : State α)
    (nc : Nat) (h : LocksMatch s) : LocksMatch (Resize hash s nc) := by
  unfold Resize
  dsimp only
  split
  · exact h
  · show max HashSet.kMinBuckets (HashSet.NormalizeCapacity nc)
        = (HashSet.rehashInto hash
            (max HashSet.kMinBuckets (HashSet.NormalizeCapacity nc))
            s.buckets).length
    have hpos : 0 < max HashSet.kMinBuckets (HashSet.NormalizeCapacity nc) :=
      Nat.lt_of_lt_of_le (by decide) (Nat.le_max_left _ _)
    exact ((HashSet.rehashInto_spec hash _ hpos s.buckets).1).symm

theorem step_locksMatch [DecidableEq α] (hash : α → Nat) (s : State α)
    (op : HashSet.Op α) (h : LocksMatch s) : LocksMatch (step hash s op) := by
  cases op with
  | add v =>
    show LocksMatch (Add hash s v).2
    unfold Add
    dsimp only
    split
    · exact h
    · split
      · refine Resize_locksMatch hash _ _ ?_
        show s.locksLen = (HashSet.bucketPush s.buckets _ v).length
        rw [HashSet.length_bucketPush]
        exact h
      · show s.locksLen = (HashSet.bucketPush s.buckets _ v).length
        rw [HashSet.length_bucketPush]
        exact h
  | remove v =>
    show LocksMatch (Remove hash s v).2
    unfold Remove
    dsimp only
    split
    · split
      · refine Resize_locksMatch hash _ _ ?_
        show s.locksLen = (s.buckets.set _ _).length
        rw [List.length_set]
        exact h
      · show s.locksLen = (s.buckets.set _ _).length
        rw [List.length_set]
        exact h
    · exact h
  | contains v => exact h

theorem runFrom_locksMatch [DecidableEq α] (hash : α → Nat) :
    ∀ (ops : List (HashSet.Op α)) (s : State α),
      LocksMatch s → LocksMatch (runFrom hash s ops) := by
  intro ops
  induction ops with
  | nil => intro s h; exact h
  | cons op t ih =>
    intro s h
    exact ih (step hash s op) (step_locksMatch hash s op h)

end HashSetRefinable

/-- C4: in the Refinable set the lock array always has one mutex per
bucket: len(locks) = B holds after construction with any initial
capacity and after every sequence of operations (every completed Resize
swaps in a lock array of the new capacity together with the bucket
array). -/
theorem claim_c4_refinable_locks_track_buckets (α : Type) [DecidableEq α]
    (hash : α → Nat) (c : Nat) (ops : List (HashSet.Op α)) :
    (HashSetRefinable.init α c).locksLen
        = (HashSetRefinable.init α c).buckets.length ∧
    (HashSetRefinable.run hash c ops).locksLen
        = (HashSetRefinable.run hash c ops).buckets.length := by
  have hinit : HashSetRefinable.LocksMatch (HashSetRefinable.init α c) := by
    simp [HashSetRefinable.LocksMatch, HashSetRefinable.init]
  exact ⟨hinit, HashSetRefinable.runFrom_locksMatch hash ops _ hinit⟩

/-- C3 counterexample: NormalizeCapacity(1) = 1, not max(1, kMinBuckets)
= 4, so NormalizeCapacity is not max(c, kMinBuckets) and does not round
capacities 1..3 up to 4. -/
theorem claim_c3_counterexample :
    HashSet.NormalizeCapacity 1 ≠ max 1 HashSet.kMinBuckets := by decide

/-- C3 (amended): NormalizeCapacity(0) = kMinBuckets = 4 and
NormalizeCapacity(c) = c for c > 0; the kMinBuckets floor is applied
not by NormalizeCapacity itself but by the max the call sites wrap
around it, and that composition equals max(c, kMinBuckets). -/
theorem claim_c3_normalize_capacity (c : Nat) :
    HashSet.NormalizeCapacity 0 = HashSet.kMinBuckets ∧
    (0 < c → HashSet.NormalizeCapacity c = c) ∧
    max (HashSet.NormalizeCapacity c) HashSet.kMinBuckets
      = max c HashSet.kMinBuckets := by
  refine ⟨rfl, fun hc => ?_, HashSet.max_normalize c⟩
  unfold HashSet.NormalizeCapacity
  rw [if_neg (Nat.pos_iff_ne_zero.mp hc)]

/-- C3 witness: the amended statement evaluated at c = 7. -/
theorem claim_c3_witness :
    0 < 7 ∧ HashSet.NormalizeCapacity 7 = 7 :=
  ⟨by decide, (claim_c3_normalize_capacity 7).2.1 (by decide)⟩

/-- C8: every variant's constructor produces max(initial_capacity,
kMinBuckets) buckets: capacities below 4 (including 0) are rounded up
to 4 and larger capacities are used as given. -/
theorem claim_c8_constructor_bucket_count (α : Type) (c stripes : Nat) :
    (HashSetSequential.init α c).buckets.length
        = max c HashSet.kMinBuckets ∧
    (HashSetCoarseGrained.init α c).buckets.length
        = max c HashSet.kMinBuckets ∧
    (HashSetStriped.init α c stripes).buckets.length
        = max c HashSet.kMinBuckets ∧
    (HashSetRefinable.init α c).buckets.length
        = max c HashSet.kMinBuckets := by
  refine ⟨?_, ?_, ?_, ?_⟩ <;>
    simp [HashSetSequential.init, HashSetCoarseGrained.init,
      HashSetStriped.init, HashSetRefinable.init, HashSet.max_normalize]

/-- C1 is false of the code (code bug): the coarse-grained shrink is not
clamped at kMinBuckets.  From a fresh set of capacity 4, Add(1) then
Remove(1) triggers Resize(4/2) and leaves 2 < kMinBuckets buckets. -/
theorem claim_c1_coarse_shrink_unclamped :
    (HashSetCoarseGrained.run id 4
        [.add 1, .remove 1]).map (fun s => s.buckets.length) = some 2 ∧
    2 < HashSet.kMinBuckets := by decide

/-- C10 is false of the code (code bug): three Add/Remove pairs from
capacity 4 drive the coarse-grained bucket count 4 → 2 → 1 → 0, and the
next Add evaluates hash(v) % 0 — the undefined branch of the embedding
(none) is reached. -/
theorem claim_c10_coarse_bucket_count_zero :
    HashSetCoarseGrained.run id 4
        [.add 1, .remove 1, .add 1, .remove 1, .add 1, .remove 1]
      = some { buckets := [], size := 0 } ∧
    HashSetCoarseGrained.Add id
        ({ buckets := [], size := 0 } : HashSetCoarseGrained.State Nat) 1
      = none := by decide

/-- C6: for the Sequential set and every new_cap >= 1, Resize(new_cap)
leaves the size counter and the stored multiset of elements unchanged,
produces a bucket array of exactly new_cap buckets, and places every
element v in bucket hash(v) mod new_cap (re-establishing I2). -/
theorem claim_c6_sequential_resize_rehash (α : Type) [DecidableEq α]
    (hash : α → Nat) (s : HashSetSequential.State α) (new_cap : Nat)
    (h : 1 ≤ new_cap) :
    (HashSetSequential.Resize hash s new_cap).size = s.size ∧
    (HashSetSequential.Resize hash s new_cap).buckets.length = new_cap ∧
    (∀ w, ((HashSetSequential.Resize hash s new_cap).buckets.flatten).count w
        = (s.buckets.flatten).count w) ∧
    (∀ j, ∀ v ∈ (HashSetSequential.Resize hash s new_cap).buckets.getD j [],
        hash v % new_cap = j) := by
  obtain ⟨h1, h2, h3⟩ := HashSet.rehashInto_spec hash new_cap h s.buckets
  exact ⟨rfl, h1, h3, h2⟩

/-- C6 witness: the Resize theorem evaluated on a concrete 4-bucket
state holding 0 and 1, resized to 2 buckets. -/
theorem claim_c6_witness :
    1 ≤ 2 ∧
    ((HashSetSequential.Resize id seqStateW 2).size = seqStateW.size ∧
     (HashSetSequential.Resize id seqStateW 2).buckets.length = 2 ∧
     (∀ w, ((HashSetSequential.Resize id seqStateW 2).buckets.flatten).count w
        = (seqStateW.buckets.flatten).count w) ∧
     (∀ j, ∀ v ∈ (HashSetSequential.Resize id seqStateW 2).buckets.getD j [],
        id v % 2 = j)) :=
  ⟨by decide, claim_c6_sequential_resize_rehash Nat id seqStateW 2 (by decide)⟩

/-- C2 counterexample: in the skeleton draft of the Refinable set
(src/skeleton/src/hash_set_refinable.h), a successful Remove on a
concrete 8-bucket state leaves the final size 0 < 8 (load factor below
1.0, no resize in progress) yet performs no Resize: the bucket count
stays 8, where the claimed Resize(max(kMinBuckets, 8/2)) would have
produced 4 buckets. -/
theorem claim_c2_counterexample :
    (HashSetRefinableSkeleton.Remove id refStateW 1).1 = true ∧
    (HashSetRefinableSkeleton.Remove id refStateW 1).2.size
        < refStateW.buckets.length ∧
    (HashSetRefinableSkeleton.Remove id refStateW 1).2.buckets.length = 8 ∧
    (HashSetRefinable.Resize id
        (HashSetRefinableSkeleton.Remove id refStateW 1).2
        (max HashSet.kMinBuckets (refStateW.buckets.length / 2))
      ).buckets.length = 4 ∧
    (HashSetRefinableSkeleton.Remove id refStateW 1).2
      ≠ HashSetRefinable.Resize id
          (HashSetRefinableSkeleton.Remove id refStateW 1).2
          (max HashSet.kMinBuckets (refStateW.buckets.length / 2)) := by
  decide

/-- C2 (amended): in the part_000 draft of the Refinable set, a Remove
that succeeds (the element is in its bucket) and whose resulting load
factor against the capacity it operated under is below 1.0 (with no
concurrent resize, the sequential setting) returns true and hands the
erased state to Resize(max(kMinBuckets, used_cap / 2)); the skeleton
draft never shrinks on Remove. -/
theorem claim_c2_refinable_remove_shrinks (α : Type) [DecidableEq α]
    (hash : α → Nat) (s : HashSetRefinable.State α) (v : α)
    (hmem : v ∈ s.buckets.getD (hash v % s.buckets.length) [])
    (hlf : s.size - 1 < s.buckets.length) :
    (HashSetRefinable.Remove hash s v).1 = true ∧
    (HashSetRefinable.Remove hash s v).2
      = HashSetRefinable.Resize hash
          { s with
              buckets := s.buckets.set (hash v % s.buckets.length)
                ((s.buckets.getD (hash v % s.buckets.length) []).erase v)
              size := s.size - 1 }
          (max HashSet.kMinBuckets (s.buckets.length / 2)) := by
  unfold HashSetRefinable.Remove
  dsimp only
  rw [if_pos hmem, if_pos hlf]
  exact ⟨rfl, rfl⟩

/-- C2 witness: the amended statement evaluated on a concrete 8-bucket
refinable state holding only the value 1. -/
theorem claim_c2_witness :
    (1 ∈ refStateW.buckets.getD (id 1 % refStateW.buckets.length) [] ∧
     refStateW.size - 1 < refStateW.buckets.length) ∧
    ((HashSetRefinable.Remove id refStateW 1).1 = true ∧
     (HashSetRefinable.Remove id refStateW 1).2
       = HashSetRefinable.Resize id
           { refStateW with
               buckets := refStateW.buckets.set
                 (id 1 % refStateW.buckets.length)
                 ((refStateW.buckets.getD
                   (id 1 % refStateW.buckets.length) []).erase 1)
               size := refStateW.size - 1 }
           (max HashSet.kMinBuckets (refStateW.buckets.length / 2))) :=
  ⟨⟨by decide, by decide⟩,
    claim_c2_refinable_remove_shrinks Nat id refStateW 1 (by decide)
      (by decide)⟩

namespace HashSetSequential

variable {α : Type}

/-- Well-formedness of a sequential state: at least kMinBuckets buckets
and every element in the bucket its hash selects (I1 and I2). -/
def WF (hash : α → Nat) (s : State α) : Prop :=
  HashSet.kMinBuckets ≤ s.buckets.length ∧
  HashSet.placedOK hash s.buckets.length s.buckets

theorem seqInit_WF (hash : α → Nat) (c : Nat) : WF hash (init α c) := by
  constructor
  · show HashSet.kMinBuckets ≤ (List.replicate _ ([] : List α)).length
    rw [List.length_replicate]
    exact Nat.le_max_right _ _
  · intro j w hw
    simp only [init] at hw
    rw [HashSet.getD_replicate] at hw
    simp at hw

theorem seqResize_WF [DecidableEq α] (hash : α → Nat) (s : State α) (nc : Nat)
    (h4 : HashSet.kMinBuckets ≤ nc) : WF hash (Resize hash s nc) := by
  obtain ⟨h1, h2, h3⟩ :=
    HashSet.rehashInto_spec hash nc
      (Nat.lt_of_lt_of_le (by decide) h4) s.buckets
  constructor
  · show HashSet.kMinBuckets ≤ (HashSet.rehashInto hash nc s.buckets).length
    rw [h1]
    exact h4
  · show HashSet.placedOK hash
      (HashSet.rehashInto hash nc s.buckets).length
      (HashSet.rehashInto hash nc s.buckets)
    rw [h1]
    exact h2

theorem seqAdd_WF [DecidableEq α] (hash : α → Nat) (s : State α) (v : α)
    (h : WF hash s) : WF hash (Add hash s v).2 := by
  obtain ⟨hlen, hpl⟩ := h
  have hpos : 0 < s.buckets.length := Nat.lt_of_lt_of_le (by decide) hlen
  have hlen1 :
      (HashSet.bucketPush s.buckets (hash v % s.buckets.length) v).length
        = s.buckets.length :=
    HashSet.length_bucketPush s.buckets _ v
  unfold Add
  dsimp only
  split
  · exact ⟨hlen, hpl⟩
  · split
    · refine seqResize_WF hash _ _ ?_
      rw [hlen1]
      omega
    · constructor
      · show HashSet.kMinBuckets ≤
          (HashSet.bucketPush s.buckets (hash v % s.buckets.length) v).length
        rw [hlen1]
        exact hlen
      · show HashSet.placedOK hash
          (HashSet.bucketPush s.buckets (hash v % s.buckets.length) v).length
          (HashSet.bucketPush s.buckets (hash v % s.buckets.length) v)
        rw [hlen1]
        exact HashSet.placedOK_bucketPush hash _ s.buckets v rfl hpos hpl

theorem seqRemove_WF [DecidableEq α] (hash : α → Nat) (s : State α) (v : α)
    (h : WF hash s) : WF hash (Remove hash s v).2 := by
  obtain ⟨hlen, hpl⟩ := h
  unfold Remove
  dsimp only
  split
  · constructor
    · show HashSet.kMinBuckets ≤ (s.buckets.set _ _).length
      rw [List.length_set]
      exact hlen
    · show HashSet.placedOK hash (s.buckets.set _ _).length (s.buckets.set _ _)
      rw [List.length_set]
      exact HashSet.placedOK_set_subset hash _ s.buckets _ _
        (fun w hw => List.mem_of_mem_erase hw) hpl
  · exact ⟨hlen, hpl⟩

theorem seqStep_WF [DecidableEq α] (hash : α → Nat) (s : State α)
    (op : HashSet.Op α) (h : WF hash s) : WF hash (step hash s op) := by
  cases op with
  | add v => exact seqAdd_WF hash s v h
  | remove v => exact seqRemove_WF hash s v h
  | contains v => exact h

theorem seqRunFrom_WF [DecidableEq α] (hash : α → Nat) :
    ∀ (ops : List (HashSet.Op α)) (s : State α),
      WF hash s → WF hash (runFrom hash s ops) := by
  intro ops
  induction ops with
  | nil => intro s h; exact h
  | cons op t ih => intro s h; exact ih (step hash s op) (seqStep_WF hash s op h)

theorem seqRun_WF [DecidableEq α] (hash : α → Nat) (c : Nat)
    (ops : List (HashSet.Op α)) : WF hash (run hash c ops) :=
  seqRunFrom_WF hash ops (init α c) (seqInit_WF hash c)

theorem seqAdd_of_present [DecidableEq α] (hash : α → Nat) (s : State α)
    (v : α) (h : WF hash s) (hmem : v ∈ s.buckets.flatten) :
    Add hash s v = (false, s) := by
  obtain ⟨hlen, hpl⟩ := h
  obtain ⟨j, hj, hjm⟩ := HashSet.mem_flatten_index s.buckets v hmem
  have hidx : hash v % s.buckets.length = j := hpl j v hjm
  have hin : v ∈ s.buckets.getD (hash v % s.buckets.length) [] := by
    rw [hidx]
    exact hjm
  unfold Add
  dsimp only
  rw [if_pos hin]

end HashSetSequential

namespace HashSetCoarseGrained

variable {α : Type}

/-- Well-formedness of a coarse-grained state: every element in the
bucket its hash selects (I2).  No bucket-count floor is included: the
unclamped shrink can reach any count down to 0. -/
def WF (hash : α → Nat) (s : State α) : Prop :=
  HashSet.placedOK hash s.buckets.length s.buckets

theorem coarseInit_WF (hash : α → Nat) (c : Nat) : WF hash (init α c) := by
  intro j w hw
  simp only [init] at hw
  rw [HashSet.getD_replicate] at hw
  simp at hw

theorem coarseResize_WF [DecidableEq α] (hash : α → Nat) (s : State α)
    (nc : Nat) : WF hash (Resize hash s nc) := by
  rcases Nat.eq_zero_or_pos nc with h0 | hpos
  · subst h0
    show HashSet.placedOK hash (HashSet.rehashInto hash 0 s.buckets).length
      (HashSet.rehashInto hash 0 s.buckets)
    rw [HashSet.rehashInto_zero]
    intro j w hw
    rw [List.getD_nil] at hw
    cases hw
  · obtain ⟨h1, h2, h3⟩ := HashSet.rehashInto_spec hash nc hpos s.buckets
    show HashSet.placedOK hash (HashSet.rehashInto hash nc s.buckets).length
      (HashSet.rehashInto hash nc s.buckets)
    rw [h1]
    exact h2

theorem coarseAdd_WF [DecidableEq α] (hash : α → Nat) (s : State α) (v : α)
    (b : Bool) (s' : State α) (hst : Add hash s v = some (b, s'))
    (h : WF hash s) : WF hash s' := by
  unfold Add at hst
  dsimp only at hst
  split at hst
  · cases hst
  · rename_i h0
    have hpos : 0 < s.buckets.length := Nat.pos_of_ne_zero h0
    split at hst
    · injection hst with h1
      injection h1 with hb hs
      subst hs
      exact h
    · split at hst
      · injection hst with h1
        injection h1 with hb hs
        subst hs
        exact coarseResize_WF hash _ _
      · injection hst with h1
        injection h1 with hb hs
        subst hs
        show HashSet.placedOK hash
          (HashSet.bucketPush s.buckets (hash v % s.buckets.length) v).length
          (HashSet.bucketPush s.buckets (hash v % s.buckets.length) v)
        rw [HashSet.length_bucketPush]
        exact HashSet.placedOK_bucketPush hash _ s.buckets v rfl hpos h

theorem coarseRemove_WF [DecidableEq α] (hash : α → Nat) (s : State α) (v : α)
    (b : Bool) (s' : State α) (hst : Remove hash s v = some (b, s'))
    (h : WF hash s) : WF hash s' := by
  unfold Remove at hst
  dsimp only at hst
  split at hst
  · cases hst
  · split at hst
    · split at hst
      · injection hst with h1
        injection h1 with hb hs
        subst hs
        exact coarseResize_WF hash _ _
      · injection hst with h1
        injection h1 with hb hs
        subst hs
        show HashSet.placedOK hash (s.buckets.set _ _).length
          (s.buckets.set _ _)
        rw [List.length_set]
        exact HashSet.placedOK_set_subset hash _ s.buckets _ _
          (fun w hw => List.mem_of_mem_erase hw) h
    · injection hst with h1
      injection h1 with hb hs
      subst hs
      exact h

theorem coarseContains_state [DecidableEq α] (hash : α → Nat) (s : State α)
    (v : α) (b : Bool) (s' : State α)
    (hst : Contains hash s v = some (b, s')) : s' = s := by
  unfold Contains at hst
  dsimp only at hst
  split at hst
  · cases hst
  · injection hst with h1
    injection h1 with hb hs
    exact hs.symm

theorem coarseStep_WF [DecidableEq α] (hash : α → Nat) (s s' : State α)
    (op : HashSet.Op α) (hst : step hash s op = some s') (h : WF hash s) :
    WF hash s' := by
  cases op with
  | add v =>
    cases hAdd : Add hash s v with
    | none => rw [step, hAdd] at hst; cases hst
    | some p =>
      rw [step, hAdd] at hst
      injection hst with hs
      subst hs
      exact coarseAdd_WF hash s v p.1 p.2 (by rw [hAdd]) h
  | remove v =>
    cases hRem : Remove hash s v with
    | none => rw [step, hRem] at hst; cases hst
    | some p =>
      rw [step, hRem] at hst
      injection hst with hs
      subst hs
      exact coarseRemove_WF hash s v p.1 p.2 (by rw [hRem]) h
  | contains v =>
    cases hCon : Contains hash s v with
    | none => rw [step, hCon] at hst; cases hst
    | some p =>
      rw [step, hCon] at hst
      injection hst with hs
      subst hs
      show WF hash p.2
      rw [coarseContains_state hash s v p.1 p.2 (by rw [hCon])]
      exact h

theorem coarseRunFrom_WF [DecidableEq α] (hash : α → Nat) :
    ∀ (ops : List (HashSet.Op α)) (s s' : State α),
      runFrom hash s ops = some s' → WF hash s → WF hash s' := by
  intro ops
  induction ops with
  | nil =>
    intro s s' hrun h
    injection hrun with hs
    subst hs
    exact h
  | cons op t ih =>
    intro s s' hrun h
    unfold runFrom at hrun
    split at hrun
    · cases hrun
    · rename_i s1 hstep
      exact ih s1 s' hrun (coarseStep_WF hash s s1 op hstep h)

theorem coarseRun_WF [DecidableEq α] (hash : α → Nat) (c : Nat)
    (ops : List (HashSet.Op α)) (s' : State α)
    (hrun : run hash c ops = some s') : WF hash s' :=
  coarseRunFrom_WF hash ops (init α c) s' hrun (coarseInit_WF hash c)

theorem coarseAdd_of_present [DecidableEq α] (hash : α → Nat) (s : State α)
    (v : α) (h : WF hash s) (hmem : v ∈ s.buckets.flatten) :
    Add hash s v = some (false, s) := by
  obtain ⟨j, hj, hjm⟩ := HashSet.mem_flatten_index s.buckets v hmem
  have hidx : hash v % s.buckets.length = j := h j v hjm
  have hin : v ∈ s.buckets.getD (hash v % s.buckets.length) [] := by
    rw [hidx]
    exact hjm
  have hne : s.buckets.length ≠ 0 := by omega
  unfold Add
  dsimp only
  rw [if_neg hne, if_pos hin]

end HashSetCoarseGrained

/-- C7: in every state reachable by a sequence of operations from a
constructed set, adding a value that is already present returns false
and modifies nothing: buckets and size are exactly as before — for the
Sequential variant, and for the Coarse-Grained variant whenever the
operation sequence completes without hitting the modulo-by-zero bug. -/
theorem claim_c7_add_of_present_is_noop (α : Type) [DecidableEq α]
    (hash : α → Nat) (c : Nat) (ops : List (HashSet.Op α)) (v : α) :
    (v ∈ (HashSetSequential.run hash c ops).buckets.flatten →
      HashSetSequential.Add hash (HashSetSequential.run hash c ops) v
        = (false, HashSetSequential.run hash c ops)) ∧
    (∀ s : HashSetCoarseGrained.State α,
      HashSetCoarseGrained.run hash c ops = some s →
      v ∈ s.buckets.flatten →
      HashSetCoarseGrained.Add hash s v = some (false, s)) :=
  ⟨fun hmem =>
      HashSetSequential.seqAdd_of_present hash _ v
        (HashSetSequential.seqRun_WF hash c ops) hmem,
    fun s hrun hmem =>
      HashSetCoarseGrained.coarseAdd_of_present hash s v
        (HashSetCoarseGrained.coarseRun_WF hash c ops s hrun) hmem⟩

/-- C7 witness: after Add(1) on a fresh sequential set of capacity 4,
a second Add(1) returns false and leaves the state unchanged. -/
theorem claim_c7_witness :
    HashSetSequential.Add id (HashSetSequential.run id 4 [.add 1]) 1
      = (false, HashSetSequential.run id 4 [.add 1]) :=
  (claim_c7_add_of_present_is_noop Nat id 4 [.add 1] 1).1 (by decide)

/-- C9: for every variant, Contains and Size are read-only: they return
their answer and leave the state (buckets, size, locks, version)
exactly as it was — for the Coarse-Grained variant under the
definedness condition B > 0 (at B = 0 the call itself hits the
modulo-by-zero undefined behavior). -/
theorem claim_c9_contains_size_readonly (α : Type) [DecidableEq α]
    (hash : α → Nat) (v : α) :
    (∀ s : HashSetSequential.State α,
        (HashSetSequential.Contains hash s v).2 = s ∧
        HashSetSequential.Size s = (s.size, s)) ∧
    (∀ s : HashSetCoarseGrained.State α, 0 < s.buckets.length →
        HashSetCoarseGrained.Contains hash s v
          = some
              (decide (v ∈ s.buckets.getD (hash v % s.buckets.length) []),
                s)) ∧
    (∀ s : HashSetCoarseGrained.State α,
        HashSetCoarseGrained.Size s = (s.size, s)) ∧
    (∀ s : HashSetStriped.State α,
        (HashSetStriped.Contains hash s v).2 = s ∧
        HashSetStriped.Size s = (s.size, s)) ∧
    (∀ s : HashSetRefinable.State α,
        (HashSetRefinable.Contains hash s v).2 = s ∧
        HashSetRefinable.Size s = (s.size, s)) := by
  refine ⟨fun s => ⟨rfl, rfl⟩, fun s hpos => ?_, fun s => rfl,
    fun s => ⟨rfl, rfl⟩, fun s => ⟨rfl, rfl⟩⟩
  unfold HashSetCoarseGrained.Contains
  rw [if_neg (Nat.pos_iff_ne_zero.mp hpos)]

/-- C9 witness: Contains(0) on a concrete coarse-grained state with one
occupied bucket returns its answer with the state unchanged. -/
theorem claim_c9_witness :
    0 < coarseStateW.buckets.length ∧
    HashSetCoarseGrained.Contains id coarseStateW 0
      = some
          (decide (0 ∈ coarseStateW.buckets.getD
            (id 0 % coarseStateW.buckets.length) []), coarseStateW) :=
  ⟨by decide,
    (claim_c9_contains_size_readonly Nat id 0).2.1 coarseStateW (by decide)⟩
